import Mathlib

/-!
Verification development for `fix_pixel_art.py`: a pixel-art recovery
pipeline (diversity-first palette quantization in Lab space, grid-period
estimation from color-change boundaries, block-mode downscaling).

Modelling conventions, shared by all definitions below:

* Python ints are `ℤ` (or `ℕ` where the source value is provably a
  nonnegative count); numpy float64 values are modelled as `ℚ`.
* The sRGB→Lab conversion `_rgb_to_lab` uses irrational operations
  (`**2.4`, `cbrt`); no claim depends on its concrete values, so the
  conversion is kept as an abstract parameter `toLab : RGB → Lab` with
  `ℚ`-valued Lab coordinates, and every theorem quantifies over it.
* `_deltaE76(x, y) = sqrt (Σ (xᵢ-yᵢ)²)` is modelled by its square
  `_deltaE76_sq`.  `Real.sqrt` is strictly monotone on nonnegative
  arguments, so every comparison the source performs on ΔE76 values
  (`argmax`, `argmin`, `min`, `<`) coincides with the comparison of the
  squares; the selected indices are therefore identical.
* Fallible code (Python `ZeroDivisionError`, numpy/Pillow `ValueError`)
  is modelled with `Except PipeError`.
* numpy `argmax` / `argmin` return the FIRST index attaining the
  extremum; `listArgmax` / `listArgmin` below realize exactly that.
-/

/-- An 8-bit RGB triple (each channel in 0..255). -/
abbrev RGB : Type := ℕ × ℕ × ℕ

/-- A Lab color, the result of `_rgb_to_lab` on one RGB triple.  The
float64 coordinates are modelled as rationals. -/
structure Lab where
  L : ℚ
  a : ℚ
  b : ℚ
deriving DecidableEq

instance : Inhabited Lab := ⟨⟨0, 0, 0⟩⟩

/-- Squared ΔE76 distance: the square of `_deltaE76(lab1, lab2) =
sqrt(Σ d²)`.  All comparisons the source makes on ΔE76 values are
reproduced exactly by comparing the squares (sqrt is strictly monotone
on nonnegatives). -/
def _deltaE76_sq (p q : Lab) : ℚ :=
  (p.L - q.L) ^ 2 + (p.a - q.a) ^ 2 + (p.b - q.b) ^ 2

/-- Squared chroma: the square of `sqrt(a² + b²)` computed at the seed
step of `_farthest_point_palette`; argmax over the squares selects the
same index as argmax over the square roots. -/
def chroma_sq (p : Lab) : ℚ := p.a ^ 2 + p.b ^ 2

/-- First index attaining the maximum of a list — the behaviour of
`np.argmax` on a 1-D array (documented: ties return the first
occurrence).  Returns 0 on `[]` (numpy raises there; all call sites pass
nonempty arrays and theorems carry the nonemptiness hypothesis). -/
def listArgmax {α : Type} [LinearOrder α] : List α → ℕ
  | [] => 0
  | [_] => 0
  | x :: y :: ys =>
      if (y :: ys).getD (listArgmax (y :: ys)) y ≤ x then 0
      else listArgmax (y :: ys) + 1

/-- First index attaining the minimum of a list — `np.argmin`. -/
def listArgmin {α : Type} [LinearOrder α] : List α → ℕ
  | [] => 0
  | [_] => 0
  | x :: y :: ys =>
      if x ≤ (y :: ys).getD (listArgmin (y :: ys)) y then 0
      else listArgmin (y :: ys) + 1

/-- Minimum of a nonempty list (0 on `[]`, never used there). -/
def minD : List ℚ → ℚ
  | [] => 0
  | x :: xs => xs.foldl min x

/-- The loop body of `_farthest_point_palette` (source lines 120-123):
each round appends `idx = argmax(dmin)` to `chosen` and replaces `dmin`
with `np.minimum(dmin, dist_fn(cand_lab, cand_lab[idx]))`. -/
def fpGo (dist : Lab → Lab → ℚ) (cand : List Lab) :
    ℕ → List ℕ → List ℚ → List ℕ
  | 0, chosen, _ => chosen
  | t + 1, chosen, dmin =>
      fpGo dist cand t (chosen ++ [listArgmax dmin])
        (List.zipWith min dmin
          (cand.map (fun c => dist c (cand.getD (listArgmax dmin) default))))

/-- `_farthest_point_palette(cand_lab, K)` (source lines 112-124), with
the default `seed_idx=None` (seed = argmax chroma) and `dist_fn`
explicit (the source's keyword parameter; callers use `_deltaE76`,
modelled by `_deltaE76_sq`).  The loop `for _ in range(1, K)` runs
`K - 1` times. -/
def _farthest_point_palette (dist : Lab → Lab → ℚ) (cand : List Lab)
    (K : ℕ) : List ℕ :=
  fpGo dist cand (K - 1) [listArgmax (cand.map chroma_sq)]
    (cand.map (fun c =>
      dist c (cand.getD (listArgmax (cand.map chroma_sq)) default)))

/-- `_kmedoids_one_iter(cand_lab, palette_idx)` (source lines 126-139).
The assignment step uses the `dist_fn` parameter, as in the source.  The
medoid scoring `SD` hardcodes Euclidean (square-root) distances in the
source; it is modelled here with the squared-distance surrogate, which
may pick a different medoid when sums of roots and sums of squares order
differently — no claim in this development depends on WHICH medoid is
selected, only on the shape of the result (same length, entries drawn
from the cluster members / previous palette). -/
def _kmedoids_one_iter (dist : Lab → Lab → ℚ) (cand : List Lab)
    (palIdx : List ℕ) : List ℕ :=
  let palette := palIdx.map (fun i => cand.getD i default)
  let assign := cand.map (fun c => listArgmin (palette.map (fun p => dist c p)))
  (List.range palIdx.length).map (fun k =>
    let members := (List.range cand.length).filter (fun i => assign.getD i 0 = k)
    if members = [] then palIdx.getD k 0
    else
      members.getD
        (listArgmin (members.map (fun i =>
          (members.map (fun j =>
            _deltaE76_sq (cand.getD i default) (cand.getD j default))).sum)))
        0)

/-- Indices `0, step, 2*step, ...` below `n` — `np.arange(0, n, step)`
for `step ≥ 1` (the source never calls it with `step = 0`, where numpy
raises). -/
def arangeStep (n step : ℕ) : List ℕ :=
  (List.range n).filter (fun i => i % step = 0)

/-- `_sample_uniform_grid(img_np, step)` (source lines 97-104): gather
`img[y][x]` for `y` and `x` on the stride-`step` grid, flattened
row-major (y outer, x inner), exactly the `reshape(-1, 3)` of the
meshgrid gather. -/
def _sample_uniform_grid (img : List (List RGB)) (step : ℕ) : List RGB :=
  ((arangeStep img.length step).map (fun y =>
    (arangeStep (img.headD []).length step).map (fun x =>
      (img.getD y []).getD x (0, 0, 0)))).flatten

/-- One channel of the `_dedup_colors` bucketing:
`(c // round_to) * round_to + round_to // 2`. -/
def bucketChan (roundTo c : ℕ) : ℕ := c / roundTo * roundTo + roundTo / 2

/-- Bucket all three channels of one RGB triple. -/
def bucketColor (roundTo : ℕ) (c : RGB) : RGB :=
  (bucketChan roundTo c.1, bucketChan roundTo c.2.1, bucketChan roundTo c.2.2)

/-- Keep the first occurrence of every value, in order of first
occurrence.  `np.unique(q, axis=0, return_index=True)` returns the
sorted unique rows together with their first-occurrence positions, and
`uq[idx.argsort()]` reorders them by first occurrence — the composite
effect is exactly first-occurrence deduplication. -/
def dedupFirst (l : List RGB) : List RGB :=
  l.foldl (fun acc c => if c ∈ acc then acc else acc ++ [c]) []

/-- `_dedup_colors(rgb, round_to)` (source lines 106-110). -/
def _dedup_colors (roundTo : ℕ) (l : List RGB) : List RGB :=
  dedupFirst (l.map (bucketColor roundTo))

/-- Nearest-palette-index assignment of one pixel inside the chunk loop
of `posterize_diverse` (source lines 165-167): the per-pixel row of
`D = stack([_deltaE76(lab_chunk, p) for p in lab_pal])`, then
`argmin`, then the `astype(np.uint8)` truncation (`% 256`). -/
def quantizeOne (pal : List Lab) (p : Lab) : ℕ :=
  listArgmin (pal.map (fun q => _deltaE76_sq p q)) % 256

/-- The chunked quantization `while` loop (source lines 162-168), with
fuel: each pass maps `quantizeOne` over the next `chunk` pixels.  Fuel
`pix.length` suffices for every `chunk ≥ 1`; the source loops forever
when `map_chunk = 0`, a case no caller exercises. -/
def chunkGo (pal : List Lab) (chunk : ℕ) : ℕ → List Lab → List ℕ
  | 0, _ => []
  | _, [] => []
  | fuel + 1, p :: rest =>
      ((p :: rest).take chunk).map (quantizeOne pal)
        ++ chunkGo pal chunk fuel ((p :: rest).drop chunk)

/-- Chunked full-image quantization: indices for all pixels, processed
in chunks of `chunk` pixels. -/
def quantizeChunked (pal : List Lab) (pix : List Lab) (chunk : ℕ) : List ℕ :=
  chunkGo pal chunk pix.length pix

/-- Modelled from the spec: the unchunked reference for full-image
quantization ("chunking must not change results") — every pixel mapped
to its nearest palette index in one pass. -/
def quantizeFullPass (pal : List Lab) (pix : List Lab) : List ℕ :=
  pix.map (quantizeOne pal)

/-- Split a flat index list back into `h` rows of `w` — the
`out_idx.reshape(H, W)` at the end of `posterize_diverse`. -/
def splitRows (w h : ℕ) (l : List ℕ) : List (List ℕ) :=
  (List.range h).map (fun i => (l.drop (i * w)).take w)

/-- An indexed ("P"-mode) image: a grid of palette indices plus its
palette.  The source pads the stored palette to 256 slots for the
Pillow container; the pad is interop convenience (spec §9) and is not
modelled. -/
structure PImage where
  pixels : List (List ℕ)
  palette : List RGB
deriving DecidableEq

/-- The runtime errors the pipeline can surface.  `divisionByZero` is
Python's `ZeroDivisionError` (from `H // sy` with `sy = 0`);
`invalidReshape` is numpy's `ValueError` on the negative reshape
dimensions produced by a negative block size; `paletteOverflow` is
Pillow's `ValueError` from `putpalette` on more than 256 colors. -/
inductive PipeError where
  | divisionByZero
  | invalidReshape
  | paletteOverflow
deriving DecidableEq

/-- `posterize_diverse(img_rgb, colors, sample_step, bucket, refine,
map_chunk)` (source lines 141-173).  `K = max(2, int(colors))` — note
the silent clamp.  `toLab` abstracts `_rgb_to_lab` (see the module
comment).  The source computes the full index array and then crashes in
`putpalette` when `K > 256` (`pal_list` longer than 768 entries); the
error is surfaced here at the end, observationally the same. -/
def posterize_diverse (toLab : RGB → Lab) (img : List (List RGB))
    (colors : ℤ) (sample_step bucket : ℕ) (refine : Bool)
    (map_chunk : ℕ) : Except PipeError PImage :=
  let cand_rgb := _dedup_colors bucket (_sample_uniform_grid img sample_step)
  let cand_lab := cand_rgb.map toLab
  let K := (max 2 colors).toNat
  let pal0 := _farthest_point_palette _deltaE76_sq cand_lab K
  let pal_idx := if refine then _kmedoids_one_iter _deltaE76_sq cand_lab pal0 else pal0
  let palette_rgb := pal_idx.map (fun i => cand_rgb.getD i (0, 0, 0))
  let lab_pal := palette_rgb.map toLab
  let out_idx := quantizeChunked lab_pal (img.flatten.map toLab) map_chunk
  if 256 < K then Except.error PipeError.paletteOverflow
  else Except.ok ⟨splitRows (img.headD []).length img.length out_idx, palette_rgb⟩

/-- Mean of a rational list (`np.mean`); 0 on `[]` (numpy produces NaN
with a warning there; in the one empty-profile call site the value is
multiplied into an empty array and never observed). -/
def meanQ (l : List ℚ) : ℚ := l.sum / l.length

/-- The strided subsequence `l[o::s]`. -/
def strided (l : List ℚ) (o s : ℕ) : List ℚ :=
  ((List.range l.length).filter (fun i => o ≤ i ∧ (i - o) % s = 0)).map
    (fun i => l.getD i 0)

/-- Exact comparison `a / sqrt m < b / sqrt n` (for `m, n ≥ 1`) carried
out on rationals: the score `best_for_s / math.sqrt(s)` of
`_best_period` is represented as the pair `(numerator, s)` and compared
without ever forming the irrational quotient. -/
def sqrtScoreLt (a : ℚ) (m : ℕ) (b : ℚ) (n : ℕ) : Bool :=
  if 0 ≤ a then (if 0 ≤ b then decide (a ^ 2 * n < b ^ 2 * m) else false)
  else (if 0 ≤ b then true else decide (b ^ 2 * m < a ^ 2 * n))

/-- The inner offset loop of `_best_period` (source lines 185-192):
best over `o ∈ [0, s)` of `np.mean(np.abs(vals))` on the strided
subsequence, skipping offsets with at most one sample; `-1.0` when every
offset is skipped.  `strength` is already mean-centered here; the
source additionally divides the whole profile by `std + 1e-6`, a
positive constant factor that cancels from every comparison
`_best_period` performs, so it is dropped (see `_best_period`). -/
def bestForS (strength : List ℚ) (s : ℕ) : ℚ :=
  (List.range s).foldl (fun best o =>
    let vals := strided strength o s
    if vals.length ≤ 1 then best else max best (meanQ (vals.map (fun x => |x|))))
    (-1)

/-- The candidate-period fold state of `_best_period`: the best period
found (`none` = Python's initial `best_s = None`) and its score
`bestA / sqrt bestM`. -/
structure BPState where
  bestS : Option ℕ
  bestA : ℚ
  bestM : ℕ

/-- `_best_period(strength, lo, hi)` (source lines 178-196).  The
normalization divides by `std + 1e-6 > 0`; every achieved (nonnegative)
score is scaled by that same constant while the `-1.0` sentinels are
not, and no comparison's outcome changes (nonnegative vs nonnegative:
common factor; sentinel vs nonnegative: opposite signs; sentinel vs
sentinel: no factor), so the model keeps only the mean-centering.  The
score `best_for_s / sqrt(s)` is compared exactly via `sqrtScoreLt`.
`best_s or 1` yields 1 when no period was examined (empty range). -/
def _best_period (strength : List ℚ) (lo hi : ℕ) : ℕ :=
  let centered := strength.map (fun x => x - meanQ strength)
  let n := strength.length
  let final := ((List.range (min hi n + 1)).filter (fun s => lo ≤ s)).foldl
    (fun st s =>
      let a := bestForS centered s
      if sqrtScoreLt st.bestA st.bestM a s then ⟨some s, a, s⟩ else st)
    (⟨none, -1, 1⟩ : BPState)
  match final.bestS with
  | none => 1
  | some s => if s = 0 then 1 else s

/-- One row of `np.diff(arr, axis=1) != 0`: 1 where horizontally
adjacent indices differ. -/
def diffRow (row : List ℕ) : List ℕ :=
  List.zipWith (fun a b => if a ≠ b then 1 else 0) row (row.drop 1)

/-- `(np.diff(arr, axis=0) != 0)`: rows comparing vertically adjacent
pixels. -/
def edgesY (img : List (List ℕ)) : List (List ℕ) :=
  List.zipWith (fun r1 r2 => List.zipWith (fun a b => if a ≠ b then 1 else 0) r1 r2)
    img (img.drop 1)

/-- Column sums (`edges_x.sum(axis=0)`) of a list of rows, for `len`
columns. -/
def sumCols (rows : List (List ℕ)) (len : ℕ) : List ℕ :=
  (List.range len).map (fun j => (rows.map (fun r => r.getD j 0)).sum)

/-- `estimate_grid_step_from_edges(pal_img, smin, smax)` (source lines
198-206): per-axis edge-strength profiles (column strength length
`W - 1`, row strength length `H - 1`), each fed to `_best_period`;
returns `(sy, sx)`. -/
def estimate_grid_step_from_edges (img : List (List ℕ)) (smin smax : ℕ) :
    ℕ × ℕ :=
  let W := (img.headD []).length
  let col_strength := sumCols (img.map diffRow) (W - 1)
  let row_strength := (edgesY img).map (fun r => r.sum)
  (_best_period (row_strength.map (fun v => (v : ℚ))) smin smax,
   _best_period (col_strength.map (fun v => (v : ℚ))) smin smax)

/-- The sy×sx block at block coordinates (i, j) of the cropped image,
row-major — element (r, c) is `arr[i*sy + r][j*sx + c]`.  This is
exactly row `i*wb + j` of
`arr.reshape(hb, sy, wb, sx).swapaxes(1, 2).reshape(hb*wb, sy*sx)`
(source line 215): reshape of the cropped row-major array puts
`arr[i*sy+r, j*sx+c]` at position `(i, r, j, c)`, and the swap reorders
to `(i, j, r, c)`. -/
def blockAt (arr : List (List ℕ)) (sy sx i j : ℕ) : List ℕ :=
  ((List.range sy).map (fun r =>
    (List.range sx).map (fun c =>
      (arr.getD (i * sy + r) []).getD (j * sx + c) 0))).flatten

/-- `np.argmax(np.bincount(block, minlength=256))` (source lines
219-220): the lowest palette index with the highest occurrence count.
Palette indices come from a `uint8` array, so the count table has
exactly 256 entries. -/
def blockMode (xs : List ℕ) : ℕ :=
  listArgmax ((List.range 256).map (fun v => xs.count v))

/-- The positive-block-size core of `downscale_by_mode` (source lines
209-221).  `hb = ((H // sy) * sy) // sy = H / sy` and likewise `wb`;
the crop to `H2 × W2` is absorbed into `blockAt`'s index arithmetic,
whose indices `i*sy + r < hb*sy = H2` and `j*sx + c < wb*sx = W2` stay
inside the cropped region. -/
def downscaleCore (arr : List (List ℕ)) (sy sx : ℕ) : List (List ℕ) :=
  let hb := arr.length / sy
  let wb := (arr.headD []).length / sx
  (List.range hb).map (fun i =>
    (List.range wb).map (fun j => blockMode (blockAt arr sy sx i j)))

/-- `downscale_by_mode(pal_img, sy, sx)` (source lines 208-225) on the
index grid.  `sy = 0` or `sx = 0` raises `ZeroDivisionError` at
`(H // sy) * sy, (W // sx) * sx`; a negative block size reaches
`arr.reshape(hb, sy, wb, sx)` with negative dimensions and raises
numpy's `ValueError`.  The output palette is the input palette
(`putpalette(pal_img.getpalette())`), reattached by the caller model
`fix_pixel_art`. -/
def downscale_by_mode (arr : List (List ℕ)) (sy sx : ℤ) :
    Except PipeError (List (List ℕ)) :=
  if sy = 0 ∨ sx = 0 then Except.error PipeError.divisionByZero
  else if sy < 0 ∨ sx < 0 then Except.error PipeError.invalidReshape
  else Except.ok (downscaleCore arr sy.toNat sx.toNat)

/-- `fix_pixel_art(img, colors, smin, smax, sample_step, bucket,
refine, override)` (source lines 230-253) from the prepared RGB image
on (transparency flattening is outside the core per spec §1/§6).  With
no override: estimate, square-enforce via `if sx < sy: sx = sy else:
sy = sx`, then subtract one from each axis.  With an override: use it
verbatim.  Returns the quantized image, the block size actually used,
and the downscaled image sharing the palette. -/
def fix_pixel_art (toLab : RGB → Lab) (img : List (List RGB)) (colors : ℤ)
    (smin smax : ℕ) (sample_step bucket : ℕ) (refine : Bool)
    (override : Option (ℤ × ℤ)) :
    Except PipeError (PImage × (ℤ × ℤ) × PImage) :=
  (posterize_diverse toLab img colors sample_step bucket refine 400000).bind
    (fun pal =>
      let s : ℤ × ℤ :=
        match override with
        | none =>
            let est := estimate_grid_step_from_edges pal.pixels smin smax
            let sy : ℤ := est.1
            let sx : ℤ := est.2
            let sx2 := if sx < sy then sy else sx
            let sy2 := if sx < sy then sy else sx
            (sy2 - 1, sx2 - 1)
        | some o => o
      (downscale_by_mode pal.pixels s.1 s.2).map
        (fun out => (pal, s, ⟨out, pal.palette⟩)))

/-- Distance from candidate `i` to its nearest color among the `chosen`
candidate indices — the quantity the spec says `dmin` maintains
("distance to the nearest already-chosen palette color").  Used in
theorem statements to characterize `_farthest_point_palette`. -/
def nearestChosen (dist : Lab → Lab → ℚ) (cand : List Lab)
    (chosen : List ℕ) (i : ℕ) : ℚ :=
  minD (chosen.map (fun c => dist (cand.getD i default) (cand.getD c default)))

/-- The semantic `dmin` array: nearest-chosen distance of every
candidate. -/
def dminSpec (dist : Lab → Lab → ℚ) (cand : List Lab)
    (chosen : List ℕ) : List ℚ :=
  (List.range cand.length).map (nearestChosen dist cand chosen)

/-! ### Basic lemmas: indexing, argmax / argmin, minD, distances -/

theorem getD_eq_of_lt {α : Type} (l : List α) (d1 d2 : α) {i : ℕ}
    (h : i < l.length) : l.getD i d1 = l.getD i d2 := by
  rw [List.getD_eq_getElem l d1 h, List.getD_eq_getElem l d2 h]

theorem getD_map_range {β : Type} (f : ℕ → β) (n : ℕ) (d : β) {v : ℕ}
    (h : v < n) : ((List.range n).map f).getD v d = f v := by
  have hv : v < ((List.range n).map f).length := by simpa using h
  rw [List.getD_eq_getElem _ _ hv, List.getElem_map, List.getElem_range]

theorem getD_map {α β : Type} (f : α → β) (l : List α) (d : β) (d' : α)
    {i : ℕ} (h : i < l.length) :
    (l.map f).getD i d = f (l.getD i d') := by
  have hi : i < (l.map f).length := by simpa using h
  rw [List.getD_eq_getElem _ _ hi, List.getElem_map,
    List.getD_eq_getElem l d' h]

theorem getD_zipWith_min (a b : List ℚ) {i : ℕ}
    (ha : i < a.length) (hb : i < b.length) :
    (List.zipWith min a b).getD i 0 = min (a.getD i 0) (b.getD i 0) := by
  have hi : i < (List.zipWith min a b).length := by
    simp only [List.length_zipWith]; omega
  rw [List.getD_eq_getElem _ _ hi, List.getElem_zipWith,
    List.getD_eq_getElem a 0 ha, List.getD_eq_getElem b 0 hb]

theorem listArgmax_lt {α : Type} [LinearOrder α] :
    ∀ (l : List α), l ≠ [] → listArgmax l < l.length
  | [x], _ => by simp [listArgmax]
  | x :: y :: ys, _ => by
      have ih := listArgmax_lt (y :: ys) (by simp)
      by_cases h : (y :: ys).getD (listArgmax (y :: ys)) y ≤ x
      · simp only [listArgmax, if_pos h, List.length_cons]
        omega
      · simp only [listArgmax, if_neg h, List.length_cons] at ih ⊢
        omega

theorem listArgmax_le {α : Type} [LinearOrder α] (d : α) :
    ∀ (l : List α) (j : ℕ), j < l.length →
      l.getD j d ≤ l.getD (listArgmax l) d
  | [], j, hj => by simp at hj
  | [x], j, hj => by
      have hj0 : j = 0 := by simpa using Nat.lt_one_iff.mp (by simpa using hj)
      subst hj0
      simp [listArgmax]
  | x :: y :: ys, j, hj => by
      have hr := listArgmax_lt (y :: ys) (by simp)
      by_cases h : (y :: ys).getD (listArgmax (y :: ys)) y ≤ x
      · simp only [listArgmax, if_pos h]
        match j with
        | 0 => exact le_refl _
        | j + 1 =>
            have hj' : j < (y :: ys).length := by
              simpa using Nat.succ_lt_succ_iff.mp (by simpa using hj)
            have h1 := listArgmax_le d (y :: ys) j hj'
            have h2 : (y :: ys).getD (listArgmax (y :: ys)) d
                = (y :: ys).getD (listArgmax (y :: ys)) y :=
              getD_eq_of_lt _ _ _ hr
            simpa using h1.trans (le_of_eq h2 |>.trans h)
      · simp only [listArgmax, if_neg h]
        match j with
        | 0 =>
            have h2 : (y :: ys).getD (listArgmax (y :: ys)) y
                = (y :: ys).getD (listArgmax (y :: ys)) d :=
              getD_eq_of_lt _ _ _ hr
            have := le_of_lt (lt_of_not_le h)
            simpa using this.trans (le_of_eq h2)
        | j + 1 =>
            have hj' : j < (y :: ys).length := by
              simpa using Nat.succ_lt_succ_iff.mp (by simpa using hj)
            simpa using listArgmax_le d (y :: ys) j hj'

theorem listArgmax_first {α : Type} [LinearOrder α] (d : α) :
    ∀ (l : List α) (j : ℕ), j < listArgmax l →
      l.getD j d < l.getD (listArgmax l) d
  | [], j, hj => by simp [listArgmax] at hj
  | [x], j, hj => by simp [listArgmax] at hj
  | x :: y :: ys, j, hj => by
      have hr := listArgmax_lt (y :: ys) (by simp)
      by_cases h : (y :: ys).getD (listArgmax (y :: ys)) y ≤ x
      · simp only [listArgmax, if_pos h] at hj
        exact absurd hj (Nat.not_lt_zero j)
      · simp only [listArgmax, if_neg h] at hj ⊢
        match j with
        | 0 =>
            have h2 : (y :: ys).getD (listArgmax (y :: ys)) y
                = (y :: ys).getD (listArgmax (y :: ys)) d :=
              getD_eq_of_lt _ _ _ hr
            simpa using (lt_of_not_le h).trans_eq h2
        | j + 1 =>
            have hj' : j < listArgmax (y :: ys) := Nat.succ_lt_succ_iff.mp hj
            simpa using listArgmax_first d (y :: ys) j hj'

theorem listArgmin_lt {α : Type} [LinearOrder α] :
    ∀ (l : List α), l ≠ [] → listArgmin l < l.length
  | [x], _ => by simp [listArgmin]
  | x :: y :: ys, _ => by
      have ih := listArgmin_lt (y :: ys) (by simp)
      by_cases h : x ≤ (y :: ys).getD (listArgmin (y :: ys)) y
      · simp only [listArgmin, if_pos h, List.length_cons]
        omega
      · simp only [listArgmin, if_neg h, List.length_cons] at ih ⊢
        omega

theorem listArgmin_le {α : Type} [LinearOrder α] (d : α) :
    ∀ (l : List α) (j : ℕ), j < l.length →
      l.getD (listArgmin l) d ≤ l.getD j d
  | [], j, hj => by simp at hj
  | [x], j, hj => by
      have hj0 : j = 0 := by simpa using Nat.lt_one_iff.mp (by simpa using hj)
      subst hj0
      simp [listArgmin]
  | x :: y :: ys, j, hj => by
      have hr := listArgmin_lt (y :: ys) (by simp)
      by_cases h : x ≤ (y :: ys).getD (listArgmin (y :: ys)) y
      · simp only [listArgmin, if_pos h]
        match j with
        | 0 => exact le_refl _
        | j + 1 =>
            have hj' : j < (y :: ys).length := by
              simpa using Nat.succ_lt_succ_iff.mp (by simpa using hj)
            have h1 := listArgmin_le d (y :: ys) j hj'
            have h2 : (y :: ys).getD (listArgmin (y :: ys)) y
                = (y :: ys).getD (listArgmin (y :: ys)) d :=
              getD_eq_of_lt _ _ _ hr
            simpa using (h.trans (le_of_eq h2)).trans h1
      · simp only [listArgmin, if_neg h]
        match j with
        | 0 =>
            have h2 : (y :: ys).getD (listArgmin (y :: ys)) d
                = (y :: ys).getD (listArgmin (y :: ys)) y :=
              getD_eq_of_lt _ _ _ hr
            simpa using le_of_lt (h2.trans_lt (lt_of_not_le h))
        | j + 1 =>
            have hj' : j < (y :: ys).length := by
              simpa using Nat.succ_lt_succ_iff.mp (by simpa using hj)
            simpa using listArgmin_le d (y :: ys) j hj'

theorem listArgmin_first {α : Type} [LinearOrder α] (d : α) :
    ∀ (l : List α) (j : ℕ), j < listArgmin l →
      l.getD (listArgmin l) d < l.getD j d
  | [], j, hj => by simp [listArgmin] at hj
  | [x], j, hj => by simp [listArgmin] at hj
  | x :: y :: ys, j, hj => by
      have hr := listArgmin_lt (y :: ys) (by simp)
      by_cases h : x ≤ (y :: ys).getD (listArgmin (y :: ys)) y
      · simp only [listArgmin, if_pos h] at hj
        exact absurd hj (Nat.not_lt_zero j)
      · simp only [listArgmin, if_neg h] at hj ⊢
        match j with
        | 0 =>
            have h2 : (y :: ys).getD (listArgmin (y :: ys)) d
                = (y :: ys).getD (listArgmin (y :: ys)) y :=
              getD_eq_of_lt _ _ _ hr
            simpa using h2.trans_lt (lt_of_not_le h)
        | j + 1 =>
            have hj' : j < listArgmin (y :: ys) := Nat.succ_lt_succ_iff.mp hj
            simpa using listArgmin_first d (y :: ys) j hj'

theorem listArgmin_const :
    ∀ (l : List ℚ) (x : ℚ), (∀ y ∈ l, y = x) → listArgmin l = 0
  | [], _, _ => by simp [listArgmin]
  | [_], _, _ => by simp [listArgmin]
  | y :: z :: zs, x, hall => by
      have hr := listArgmin_lt (z :: zs) (by simp)
      have hmem : (z :: zs).getD (listArgmin (z :: zs)) z ∈ z :: zs := by
        rw [List.getD_eq_getElem _ _ hr]
        exact List.getElem_mem hr
      have h1 : (z :: zs).getD (listArgmin (z :: zs)) z = x :=
        hall _ (List.mem_cons_of_mem _ hmem)
      have h2 : y = x := hall _ (List.mem_cons_self _ _)
      show (if y ≤ (z :: zs).getD (listArgmin (z :: zs)) z then 0
        else listArgmin (z :: zs) + 1) = 0
      rw [h1, h2, if_pos (le_refl x)]

theorem listArgmin_replicate (n : ℕ) (x : ℚ) :
    listArgmin (List.replicate n x) = 0 :=
  listArgmin_const _ x (fun _ h => List.eq_of_mem_replicate h)

theorem foldl_min_le_init : ∀ (xs : List ℚ) (a : ℚ), xs.foldl min a ≤ a
  | [], a => le_refl a
  | x :: xs, a => (foldl_min_le_init xs (min a x)).trans (min_le_left a x)

theorem foldl_min_le_mem :
    ∀ (xs : List ℚ) (a x : ℚ), x ∈ xs → xs.foldl min a ≤ x
  | x' :: xs, a, x, h => by
      rcases List.mem_cons.mp h with h | h
      · subst h
        exact (foldl_min_le_init xs (min a x)).trans (min_le_right a x)
      · exact foldl_min_le_mem xs (min a x') x h

theorem foldl_min_mem :
    ∀ (xs : List ℚ) (a : ℚ), xs.foldl min a = a ∨ xs.foldl min a ∈ xs
  | [], a => Or.inl rfl
  | x :: xs, a => by
      rcases foldl_min_mem xs (min a x) with h | h
      · rcases min_cases a x with ⟨h2, _⟩ | ⟨h2, _⟩
        · left
          rw [List.foldl_cons, h, h2]
        · right
          rw [List.foldl_cons, h, h2]
          exact List.mem_cons_self x xs
      · right
        exact List.mem_cons_of_mem _ h

theorem minD_le {l : List ℚ} {x : ℚ} (h : x ∈ l) : minD l ≤ x := by
  match l with
  | y :: ys =>
      rcases List.mem_cons.mp h with h | h
      · subst h
        exact foldl_min_le_init ys x
      · exact foldl_min_le_mem ys y x h

theorem minD_mem {l : List ℚ} (h : l ≠ []) : minD l ∈ l := by
  match l with
  | y :: ys =>
      rcases foldl_min_mem ys y with h2 | h2
      · rw [minD, h2]
        exact List.mem_cons_self y ys
      · exact List.mem_cons_of_mem _ (by rw [minD]; exact h2)

theorem minD_append_singleton {l : List ℚ} (y : ℚ) (h : l ≠ []) :
    minD (l ++ [y]) = min (minD l) y := by
  match l with
  | x :: xs => simp [minD, List.foldl_append]

theorem minD_singleton (x : ℚ) : minD [x] = x := rfl

theorem minD_eq_zero_of_nonneg {l : List ℚ} (h0 : (0 : ℚ) ∈ l)
    (hn : ∀ x ∈ l, 0 ≤ x) : minD l = 0 :=
  le_antisymm (minD_le h0) (hn _ (minD_mem (List.ne_nil_of_mem h0)))

theorem minD_pos {l : List ℚ} (h : l ≠ []) (hp : ∀ x ∈ l, 0 < x) :
    0 < minD l :=
  hp _ (minD_mem h)

theorem _deltaE76_sq_nonneg (p q : Lab) : 0 ≤ _deltaE76_sq p q := by
  unfold _deltaE76_sq
  positivity

theorem _deltaE76_sq_self (p : Lab) : _deltaE76_sq p p = 0 := by
  simp [_deltaE76_sq]

theorem _deltaE76_sq_pos {p q : Lab} (h : p ≠ q) : 0 < _deltaE76_sq p q := by
  rcases lt_or_eq_of_le (_deltaE76_sq_nonneg p q) with hlt | heq
  · exact hlt
  · exfalso
    apply h
    have h1 : (p.L - q.L) ^ 2 = 0 := by
      have := sq_nonneg (p.L - q.L)
      have := sq_nonneg (p.a - q.a)
      have := sq_nonneg (p.b - q.b)
      unfold _deltaE76_sq at heq
      nlinarith
    have h2 : (p.a - q.a) ^ 2 = 0 := by
      have := sq_nonneg (p.L - q.L)
      have := sq_nonneg (p.a - q.a)
      have := sq_nonneg (p.b - q.b)
      unfold _deltaE76_sq at heq
      nlinarith
    have h3 : (p.b - q.b) ^ 2 = 0 := by
      have := sq_nonneg (p.L - q.L)
      have := sq_nonneg (p.a - q.a)
      have := sq_nonneg (p.b - q.b)
      unfold _deltaE76_sq at heq
      nlinarith
    have e1 : p.L = q.L := by
      have := pow_eq_zero_iff (n := 2) (by norm_num) |>.mp h1
      linarith [sub_eq_zero.mp this]
    have e2 : p.a = q.a := by
      have := pow_eq_zero_iff (n := 2) (by norm_num) |>.mp h2
      linarith [sub_eq_zero.mp this]
    have e3 : p.b = q.b := by
      have := pow_eq_zero_iff (n := 2) (by norm_num) |>.mp h3
      linarith [sub_eq_zero.mp this]
    cases p
    cases q
    simp_all

/-! ### Chunked quantization (C3, C5, C9) -/

theorem chunkGo_eq_map (pal : List Lab) (chunk : ℕ) (hc : 1 ≤ chunk) :
    ∀ (fuel : ℕ) (pix : List Lab), pix.length ≤ fuel →
      chunkGo pal chunk fuel pix = pix.map (quantizeOne pal)
  | 0, pix, h => by
      have : pix = [] := List.eq_nil_of_length_eq_zero (Nat.le_zero.mp h)
      subst this
      rfl
  | fuel + 1, [], _ => rfl
  | fuel + 1, p :: rest, h => by
      have hlen : ((p :: rest).drop chunk).length ≤ fuel := by
        simp only [List.length_drop, List.length_cons] at h ⊢
        omega
      rw [chunkGo, chunkGo_eq_map pal chunk hc fuel _ hlen, ← List.map_append,
        List.take_append_drop]

theorem quantizeChunked_eq_map (pal : List Lab) (pix : List Lab) (chunk : ℕ)
    (hc : 1 ≤ chunk) :
    quantizeChunked pal pix chunk = pix.map (quantizeOne pal) :=
  chunkGo_eq_map pal chunk hc pix.length pix (le_refl _)

theorem quantizeOne_lt (pal : List Lab) (p : Lab) (hpal : pal ≠ [])
    (h256 : pal.length ≤ 256) : quantizeOne pal p < pal.length := by
  have hlt : listArgmin (pal.map (fun q => _deltaE76_sq p q)) < pal.length := by
    have := listArgmin_lt (pal.map (fun q => _deltaE76_sq p q))
      (by simpa using hpal)
    simpa using this
  unfold quantizeOne
  rwa [Nat.mod_eq_of_lt (lt_of_lt_of_le hlt h256)]

theorem quantizeOne_nearest (pal : List Lab) (p : Lab) (hpal : pal ≠ [])
    (h256 : pal.length ≤ 256) {i : ℕ} (hi : i < pal.length) :
    _deltaE76_sq p (pal.getD (quantizeOne pal p) default)
      ≤ _deltaE76_sq p (pal.getD i default) := by
  have hlt : listArgmin (pal.map (fun q => _deltaE76_sq p q)) < pal.length := by
    have := listArgmin_lt (pal.map (fun q => _deltaE76_sq p q))
      (by simpa using hpal)
    simpa using this
  have hmod : quantizeOne pal p
      = listArgmin (pal.map (fun q => _deltaE76_sq p q)) := by
    unfold quantizeOne
    exact Nat.mod_eq_of_lt (lt_of_lt_of_le hlt h256)
  have h1 := listArgmin_le (0 : ℚ) (pal.map (fun q => _deltaE76_sq p q)) i
    (by simpa using hi)
  rw [getD_map _ _ _ default hlt, getD_map _ _ _ default hi] at h1
  rw [hmod]
  exact h1

theorem quantizeOne_tiebreak (pal : List Lab) (p : Lab) (hpal : pal ≠ [])
    (h256 : pal.length ≤ 256) {i : ℕ} (hi : i < pal.length)
    (heq : _deltaE76_sq p (pal.getD i default)
      = _deltaE76_sq p (pal.getD (quantizeOne pal p) default)) :
    quantizeOne pal p ≤ i := by
  have hlt : listArgmin (pal.map (fun q => _deltaE76_sq p q)) < pal.length := by
    have := listArgmin_lt (pal.map (fun q => _deltaE76_sq p q))
      (by simpa using hpal)
    simpa using this
  have hmod : quantizeOne pal p
      = listArgmin (pal.map (fun q => _deltaE76_sq p q)) := by
    unfold quantizeOne
    exact Nat.mod_eq_of_lt (lt_of_lt_of_le hlt h256)
  by_contra hgt
  push_neg at hgt
  have hi_lt : i < listArgmin (pal.map (fun q => _deltaE76_sq p q)) := by
    rw [hmod] at hgt
    exact hgt
  have hfirst := listArgmin_first (0 : ℚ)
    (pal.map (fun q => _deltaE76_sq p q)) i hi_lt
  rw [getD_map _ _ _ default hlt, getD_map _ _ _ default hi] at hfirst
  rw [hmod] at heq
  exact (ne_of_lt hfirst) heq.symm

/-! ### Farthest-point selection (C2, C10) -/

theorem dminSpec_length (dist : Lab → Lab → ℚ) (cand : List Lab)
    (chosen : List ℕ) : (dminSpec dist cand chosen).length = cand.length := by
  simp [dminSpec]

theorem dminSpec_getD (dist : Lab → Lab → ℚ) (cand : List Lab)
    (chosen : List ℕ) {i : ℕ} (h : i < cand.length) :
    (dminSpec dist cand chosen).getD i 0 = nearestChosen dist cand chosen i :=
  getD_map_range _ _ _ h

theorem nearestChosen_append (dist : Lab → Lab → ℚ) (cand : List Lab)
    {chosen : List ℕ} (hne : chosen ≠ []) (idx i : ℕ) :
    nearestChosen dist cand (chosen ++ [idx]) i
      = min (nearestChosen dist cand chosen i)
          (dist (cand.getD i default) (cand.getD idx default)) := by
  unfold nearestChosen
  rw [List.map_append]
  exact minD_append_singleton _ (by simpa using hne)

theorem dminSpec_update (dist : Lab → Lab → ℚ) (cand : List Lab)
    {chosen : List ℕ} (hne : chosen ≠ []) (idx : ℕ) :
    List.zipWith min (dminSpec dist cand chosen)
      (cand.map (fun c => dist c (cand.getD idx default)))
      = dminSpec dist cand (chosen ++ [idx]) := by
  apply List.ext_getElem
  · simp [dminSpec]
  · intro n h1 h2
    have hn : n < cand.length := by
      simpa [dminSpec] using h2
    simp only [List.getElem_zipWith, dminSpec, List.getElem_map,
      List.getElem_range]
    rw [nearestChosen_append dist cand hne idx n]
    congr 2
    rw [List.getD_eq_getElem _ _ hn]

theorem fpGo_spec (dist : Lab → Lab → ℚ) (cand : List Lab) :
    ∀ (t : ℕ) (chosen : List ℕ) (dmin : List ℚ), chosen ≠ [] →
      dmin = dminSpec dist cand chosen →
      (fpGo dist cand t chosen dmin).length = chosen.length + t ∧
      (fpGo dist cand t chosen dmin).take chosen.length = chosen ∧
      ∀ s, chosen.length ≤ s → s < chosen.length + t →
        (fpGo dist cand t chosen dmin).getD s 0
          = listArgmax
              (dminSpec dist cand ((fpGo dist cand t chosen dmin).take s))
  | 0, chosen, dmin, _, _ => by
      refine ⟨by simp [fpGo], by simp [fpGo, List.take_length], ?_⟩
      intro s h1 h2
      omega
  | t + 1, chosen, dmin, hne, hd => by
      have hupd : List.zipWith min dmin
          (cand.map (fun c => dist c (cand.getD (listArgmax dmin) default)))
          = dminSpec dist cand (chosen ++ [listArgmax dmin]) := by
        have h0 := dminSpec_update dist cand hne (listArgmax dmin)
        rw [← hd] at h0
        exact h0
      obtain ⟨ihlen, ihtake, ihpick⟩ := fpGo_spec dist cand t
        (chosen ++ [listArgmax dmin])
        (List.zipWith min dmin
          (cand.map (fun c => dist c (cand.getD (listArgmax dmin) default))))
        (by simp) hupd
      rw [fpGo]
      set R := fpGo dist cand t (chosen ++ [listArgmax dmin])
        (List.zipWith min dmin
          (cand.map (fun c => dist c (cand.getD (listArgmax dmin) default))))
        with hR
      have hlen2 : (chosen ++ [listArgmax dmin]).length = chosen.length + 1 := by
        simp
      have htake : R.take chosen.length = chosen := by
        have h1 : List.take chosen.length R
            = List.take chosen.length (List.take (chosen.length + 1) R) := by
          rw [List.take_take]
          congr 1
          omega
        rw [h1, ← hlen2, ihtake, List.take_left]
      refine ⟨by rw [ihlen, hlen2]; omega, htake, ?_⟩
      intro s hs1 hs2
      rcases eq_or_lt_of_le hs1 with heq | hlt
      · subst heq
        have hslt : chosen.length < R.length := by
          rw [ihlen, hlen2]
          omega
        have htk : chosen.length < (R.take (chosen.length + 1)).length := by
          rw [List.length_take]
          exact lt_min_iff.mpr ⟨by omega, hslt⟩
        have h3 : (R.take (chosen.length + 1)).getD chosen.length 0
            = listArgmax dmin := by
          rw [← hlen2, ihtake, List.getD_eq_getElem _ _ (by simp)]
          exact List.getElem_concat_length chosen _ _ rfl _
        have h4 : (R.take (chosen.length + 1)).getD chosen.length 0
            = R.getD chosen.length 0 := by
          rw [List.getD_eq_getElem _ _ htk, List.getD_eq_getElem _ _ hslt]
          exact List.getElem_take R
        rw [← h4, h3, htake, hd]
      · exact ihpick s (by rw [hlen2]; omega) (by rw [hlen2]; omega)

theorem fpGo_mem (dist : Lab → Lab → ℚ) (cand : List Lab) :
    ∀ (t : ℕ) (chosen : List ℕ) (dmin : List ℚ),
      dmin.length = cand.length → cand ≠ [] →
      (∀ c ∈ chosen, c < cand.length) →
      ∀ c ∈ fpGo dist cand t chosen dmin, c < cand.length
  | 0, chosen, dmin, _, _, hch => by
      intro c hc
      exact hch c hc
  | t + 1, chosen, dmin, hdlen, hcand, hch => by
      intro c hc
      rw [fpGo] at hc
      refine fpGo_mem dist cand t _ _ ?_ hcand ?_ c hc
      · simp [List.length_zipWith, hdlen]
      · intro c' hc'
        rcases List.mem_append.mp hc' with h | h
        · exact hch c' h
        · have hc'' : c' = listArgmax dmin := by simpa using h
          subst hc''
          have hne2 : dmin ≠ [] := by
            intro h0
            rw [h0] at hdlen
            exact hcand (List.eq_nil_of_length_eq_zero hdlen.symm)
          have := listArgmax_lt dmin hne2
          omega

theorem dminSpec_init (dist : Lab → Lab → ℚ) (cand : List Lab) (seed : ℕ) :
    cand.map (fun c => dist c (cand.getD seed default))
      = dminSpec dist cand [seed] := by
  apply List.ext_getElem
  · simp [dminSpec]
  · intro n h1 h2
    have hn : n < cand.length := by
      simpa using h1
    simp only [List.getElem_map, dminSpec, List.getElem_range]
    unfold nearestChosen
    simp only [List.map_cons, List.map_nil, minD_singleton]
    rw [List.getD_eq_getElem _ _ hn]

theorem fpGo_length (dist : Lab → Lab → ℚ) (cand : List Lab) :
    ∀ (t : ℕ) (chosen : List ℕ) (dmin : List ℚ),
      (fpGo dist cand t chosen dmin).length = chosen.length + t
  | 0, chosen, dmin => by simp [fpGo]
  | t + 1, chosen, dmin => by
      rw [fpGo, fpGo_length]
      simp only [List.length_append, List.length_cons, List.length_nil]
      omega

theorem _kmedoids_one_iter_length (dist : Lab → Lab → ℚ) (cand : List Lab)
    (palIdx : List ℕ) :
    (_kmedoids_one_iter dist cand palIdx).length = palIdx.length := by
  simp [_kmedoids_one_iter]

theorem _farthest_point_palette_length (dist : Lab → Lab → ℚ)
    (cand : List Lab) (K : ℕ) (hK : 1 ≤ K) :
    (_farthest_point_palette dist cand K).length = K := by
  rw [_farthest_point_palette, fpGo_length]
  simp only [List.length_cons, List.length_nil]
  omega

theorem fpGo_nodup (cand : List Lab)
    (hpw : ∀ i j, i < cand.length → j < cand.length → i ≠ j →
      cand.getD i default ≠ cand.getD j default) :
    ∀ (t : ℕ) (chosen : List ℕ) (dmin : List ℚ), chosen ≠ [] →
      chosen.Nodup → (∀ c ∈ chosen, c < cand.length) →
      dmin = dminSpec _deltaE76_sq cand chosen →
      chosen.length + t ≤ cand.length →
      (fpGo _deltaE76_sq cand t chosen dmin).Nodup
  | 0, chosen, dmin, _, hnd, _, _, _ => by simpa [fpGo] using hnd
  | t + 1, chosen, dmin, hne, hnd, hch, hd, hlen => by
      rw [fpGo]
      set idx := listArgmax dmin with hidx
      have hN1 : 1 ≤ cand.length := by
        rcases chosen with _ | ⟨c, cs⟩
        · exact absurd rfl hne
        · have := hch c (List.mem_cons_self _ _)
          omega
      have hex : ∃ u, u < cand.length ∧ u ∉ chosen := by
        by_contra hno
        push_neg at hno
        have hsub : Finset.range cand.length ⊆ chosen.toFinset := by
          intro u hu
          exact List.mem_toFinset.mpr (hno u (Finset.mem_range.mp hu))
        have h1 := Finset.card_le_card hsub
        rw [Finset.card_range] at h1
        have h2 := List.toFinset_card_le chosen
        omega
      obtain ⟨u, hu, hu2⟩ := hex
      have hupos : 0 < nearestChosen _deltaE76_sq cand chosen u := by
        apply minD_pos (by simpa using hne)
        intro x hx
        rcases List.mem_map.mp hx with ⟨c, hc, rfl⟩
        exact _deltaE76_sq_pos
          (hpw u c hu (hch c hc) (fun he => hu2 (he ▸ hc)))
      have hchz : ∀ c ∈ chosen,
          nearestChosen _deltaE76_sq cand chosen c = 0 := by
        intro c hc
        apply minD_eq_zero_of_nonneg
        · exact List.mem_map.mpr ⟨c, hc, _deltaE76_sq_self _⟩
        · intro x hx
          rcases List.mem_map.mp hx with ⟨c', _, rfl⟩
          exact _deltaE76_sq_nonneg _ _
      have hdlen : dmin.length = cand.length := by
        rw [hd]
        exact dminSpec_length _ _ _
      have hdne : dmin ≠ [] := by
        intro h0
        rw [h0] at hdlen
        simp at hdlen
        omega
      have hpick_lt : idx < cand.length := by
        have := listArgmax_lt dmin hdne
        omega
      have hle := listArgmax_le (0 : ℚ) dmin u (by omega)
      have hval_u : dmin.getD u 0 = nearestChosen _deltaE76_sq cand chosen u := by
        rw [hd]
        exact dminSpec_getD _ _ _ hu
      have hpickpos : 0 < dmin.getD idx 0 := by
        rw [← hidx] at hle
        calc (0 : ℚ) < dmin.getD u 0 := by rw [hval_u]; exact hupos
        _ ≤ dmin.getD idx 0 := hle
      have hnotmem : idx ∉ chosen := by
        intro hmem
        have hz : dmin.getD idx 0 = 0 := by
          rw [hd, dminSpec_getD _ _ _ hpick_lt]
          exact hchz idx hmem
        rw [hz] at hpickpos
        exact lt_irrefl _ hpickpos
      refine fpGo_nodup cand hpw t (chosen ++ [idx]) _ (by simp) ?_ ?_ ?_ ?_
      · simp [List.nodup_append, hnd, hnotmem]
      · intro c hc
        rcases List.mem_append.mp hc with h | h
        · exact hch c h
        · have hc2 : c = idx := by simpa using h
          rw [hc2]
          exact hpick_lt
      · have h0 := dminSpec_update _deltaE76_sq cand hne idx
        rw [← hd] at h0
        exact h0
      · simp only [List.length_append, List.length_cons, List.length_nil]
        omega

/-! ### Block-mode downscale (C1, C7) -/

theorem count_eq_zero_of_ge_256 (xs : List ℕ)
    (hlt : ∀ p ∈ xs, p < 256) {v : ℕ} (hv : 256 ≤ v) : xs.count v = 0 := by
  rw [List.count_eq_zero]
  intro hmem
  have := hlt v hmem
  omega

theorem countTable_ne_nil (xs : List ℕ) :
    (List.range 256).map (fun v => xs.count v) ≠ [] := by
  intro h
  have : ((List.range 256).map (fun v => xs.count v)).length = 256 := by simp
  rw [h] at this
  simp at this

theorem countTable_getD (xs : List ℕ) {v : ℕ} (hv : v < 256) :
    ((List.range 256).map (fun w => xs.count w)).getD v 0 = xs.count v :=
  getD_map_range _ _ _ hv

theorem blockMode_lt_256 (xs : List ℕ) : blockMode xs < 256 := by
  have := listArgmax_lt _ (countTable_ne_nil xs)
  simpa [blockMode] using this

theorem blockMode_count_le (xs : List ℕ) (hlt : ∀ p ∈ xs, p < 256) (v : ℕ) :
    xs.count v ≤ xs.count (blockMode xs) := by
  rcases Nat.lt_or_ge v 256 with hv | hv
  · have h := listArgmax_le (0 : ℕ)
      ((List.range 256).map (fun w => xs.count w)) v (by simpa using hv)
    rw [← blockMode] at h
    rwa [countTable_getD xs hv, countTable_getD xs (blockMode_lt_256 xs)] at h
  · rw [count_eq_zero_of_ge_256 xs hlt hv]
    exact Nat.zero_le _

theorem blockMode_mem (xs : List ℕ) (hne : xs ≠ [])
    (hlt : ∀ p ∈ xs, p < 256) : blockMode xs ∈ xs := by
  match xs, hne with
  | x :: rest, _ =>
      have h1 : 0 < (x :: rest).count x :=
        List.count_pos_iff.mpr (List.mem_cons_self _ _)
      have h2 := blockMode_count_le (x :: rest) hlt x
      exact List.count_pos_iff.mp (by omega)

theorem blockMode_tiebreak (xs : List ℕ) (_hlt : ∀ p ∈ xs, p < 256) (v : ℕ)
    (heq : xs.count v = xs.count (blockMode xs)) : blockMode xs ≤ v := by
  rcases Nat.lt_or_ge v 256 with hv | hv
  · by_contra hgt
    push_neg at hgt
    have h := listArgmax_first (0 : ℕ)
      ((List.range 256).map (fun w => xs.count w)) v
      (by simpa [blockMode] using hgt)
    rw [← blockMode] at h
    rw [countTable_getD xs hv, countTable_getD xs (blockMode_lt_256 xs)] at h
    omega
  · have := blockMode_lt_256 xs
    omega

theorem blockMode_const (xs : List ℕ) (hne : xs ≠ [])
    (hlt : ∀ p ∈ xs, p < 256) (c : ℕ) (hall : ∀ p ∈ xs, p = c) :
    blockMode xs = c :=
  hall _ (blockMode_mem xs hne hlt)

theorem blockAt_length (arr : List (List ℕ)) (sy sx i j : ℕ) :
    (blockAt arr sy sx i j).length = sy * sx := by
  rw [blockAt, List.length_flatten, List.map_map]
  have h : (List.range sy).map
      (List.length ∘ fun r => (List.range sx).map (fun c =>
        (arr.getD (i * sy + r) []).getD (j * sx + c) 0))
      = List.replicate sy sx := by
    apply List.eq_replicate_iff.mpr
    constructor
    · simp
    · intro b hb
      rcases List.mem_map.mp hb with ⟨r, _, rfl⟩
      simp
  rw [h, List.sum_replicate, smul_eq_mul]

theorem blockAt_ne_nil (arr : List (List ℕ)) {sy sx : ℕ} (i j : ℕ)
    (hsy : 0 < sy) (hsx : 0 < sx) : blockAt arr sy sx i j ≠ [] := by
  intro h
  have := blockAt_length arr sy sx i j
  rw [h] at this
  simp at this
  rcases this with h1 | h1
  · omega
  · omega

theorem getD_getD_lt_256 (arr : List (List ℕ))
    (hpix : ∀ row ∈ arr, ∀ p ∈ row, p < 256) (y x : ℕ) :
    (arr.getD y []).getD x 0 < 256 := by
  rcases Nat.lt_or_ge y arr.length with hy | hy
  · have hrow : arr.getD y [] ∈ arr := by
      rw [List.getD_eq_getElem _ _ hy]
      exact List.getElem_mem hy
    rcases Nat.lt_or_ge x (arr.getD y []).length with hx | hx
    · have : (arr.getD y []).getD x 0 ∈ arr.getD y [] := by
        rw [List.getD_eq_getElem _ _ hx]
        exact List.getElem_mem hx
      exact hpix _ hrow _ this
    · rw [List.getD_eq_default _ _ hx]
      omega
  · rw [List.getD_eq_default _ _ hy]
    simp

theorem blockAt_pix_lt_256 (arr : List (List ℕ))
    (hpix : ∀ row ∈ arr, ∀ p ∈ row, p < 256) (sy sx i j : ℕ) :
    ∀ p ∈ blockAt arr sy sx i j, p < 256 := by
  intro p hp
  rw [blockAt] at hp
  rcases List.mem_flatten.mp hp with ⟨inner, hin, hpin⟩
  rcases List.mem_map.mp hin with ⟨r, _, rfl⟩
  rcases List.mem_map.mp hpin with ⟨c, _, rfl⟩
  exact getD_getD_lt_256 arr hpix _ _

theorem downscaleCore_length (arr : List (List ℕ)) (sy sx : ℕ) :
    (downscaleCore arr sy sx).length = arr.length / sy := by
  simp [downscaleCore]

theorem downscaleCore_row_length (arr : List (List ℕ)) (sy sx : ℕ) :
    ∀ row ∈ downscaleCore arr sy sx,
      row.length = (arr.headD []).length / sx := by
  intro row hrow
  rcases List.mem_map.mp hrow with ⟨i, _, rfl⟩
  simp

theorem downscaleCore_getD (arr : List (List ℕ)) (sy sx : ℕ) {i j : ℕ}
    (hi : i < arr.length / sy) (hj : j < (arr.headD []).length / sx) :
    ((downscaleCore arr sy sx).getD i []).getD j 0
      = blockMode (blockAt arr sy sx i j) := by
  rw [downscaleCore]
  rw [getD_map_range _ _ _ hi, getD_map_range _ _ _ hj]

/-! ### Claim theorems -/

/-- C3: quantization (the chunk loop of `posterize_diverse`) assigns every
pixel an index `< pal.length` (in `[0, K)`), and the assigned index points
at a palette color of minimal Lab distance to the pixel (ΔE76 comparisons
realized on squared distances).  The hypotheses hold for every palette the
builder produces: `K = max(2, colors) ≥ 2` entries, at most 256. -/
theorem c3_quantize_indices_nearest (pal : List Lab) (pix : List Lab)
    (chunk : ℕ) (hpal : pal ≠ []) (h256 : pal.length ≤ 256)
    (hchunk : 1 ≤ chunk) :
    (quantizeChunked pal pix chunk).length = pix.length ∧
    ∀ j, j < pix.length →
      (quantizeChunked pal pix chunk).getD j 0 < pal.length ∧
      ∀ i, i < pal.length →
        _deltaE76_sq (pix.getD j default)
            (pal.getD ((quantizeChunked pal pix chunk).getD j 0) default)
          ≤ _deltaE76_sq (pix.getD j default) (pal.getD i default) := by
  rw [quantizeChunked_eq_map pal pix chunk hchunk]
  refine ⟨by simp, ?_⟩
  intro j hj
  rw [getD_map _ _ _ default hj]
  exact ⟨quantizeOne_lt pal _ hpal h256,
    fun i hi => quantizeOne_nearest pal _ hpal h256 hi⟩

theorem c3_witness :
    (quantizeChunked [⟨0, 0, 0⟩, ⟨1, 0, 0⟩] [⟨0, 0, 0⟩] 1).length = 1 :=
  (c3_quantize_indices_nearest [⟨0, 0, 0⟩, ⟨1, 0, 0⟩] [⟨0, 0, 0⟩] 1
    (by simp) (by norm_num) (by norm_num)).1

/-- C5: chunked full-image quantization equals the unchunked reference
(`quantizeFullPass`, modelled from the spec) for every palette, pixel
list, and chunk size ≥ 1 — chunk boundaries never change the result. -/
theorem c5_chunking_is_observational (pal : List Lab) (pix : List Lab)
    (chunk : ℕ) (hchunk : 1 ≤ chunk) :
    quantizeChunked pal pix chunk = quantizeFullPass pal pix := by
  rw [quantizeFullPass]
  exact quantizeChunked_eq_map pal pix chunk hchunk

theorem c5_witness :
    quantizeChunked [⟨0, 0, 0⟩] [⟨1, 0, 0⟩, ⟨2, 0, 0⟩, ⟨3, 0, 0⟩] 2
      = quantizeFullPass [⟨0, 0, 0⟩] [⟨1, 0, 0⟩, ⟨2, 0, 0⟩, ⟨3, 0, 0⟩] :=
  c5_chunking_is_observational _ _ 2 (by norm_num)

/-- C9: quantization breaks distance ties toward the lowest palette
index — whenever palette entry `i` is exactly as close to the pixel as
the assigned entry, the assigned index is `≤ i` (`np.argmin` returns the
first minimizer). -/
theorem c9_ties_to_lowest_index (pal : List Lab) (pix : List Lab)
    (chunk : ℕ) (hpal : pal ≠ []) (h256 : pal.length ≤ 256)
    (hchunk : 1 ≤ chunk) :
    ∀ j, j < pix.length → ∀ i, i < pal.length →
      _deltaE76_sq (pix.getD j default) (pal.getD i default)
        = _deltaE76_sq (pix.getD j default)
            (pal.getD ((quantizeChunked pal pix chunk).getD j 0) default) →
      (quantizeChunked pal pix chunk).getD j 0 ≤ i := by
  rw [quantizeChunked_eq_map pal pix chunk hchunk]
  intro j hj i hi heq
  rw [getD_map _ _ _ default hj] at heq ⊢
  exact quantizeOne_tiebreak pal _ hpal h256 hi heq

theorem c9_witness :
    (quantizeChunked [⟨0, 0, 0⟩, ⟨0, 0, 0⟩] [⟨1, 0, 0⟩] 1).getD 0 0 ≤ 1 := by
  have hconst : ∀ n : ℕ,
      (([⟨0, 0, 0⟩, ⟨0, 0, 0⟩] : List Lab)).getD n default = ⟨0, 0, 0⟩ := by
    intro n
    match n with
    | 0 => rfl
    | 1 => rfl
    | _ + 2 => rfl
  exact c9_ties_to_lowest_index [⟨0, 0, 0⟩, ⟨0, 0, 0⟩] [⟨1, 0, 0⟩] 1
    (by simp) (by norm_num) (by norm_num) 0 (by norm_num) 1 (by norm_num)
    (by rw [hconst, hconst])

/-- C7: `downscale_by_mode` with a nonpositive block size fails with an
error (Python `ZeroDivisionError` for a zero size, numpy `ValueError`
for a negative one) — it never clamps the block size or returns a
result. -/
theorem c7_nonpositive_blocksize_fails (arr : List (List ℕ)) (sy sx : ℤ)
    (h : sy ≤ 0 ∨ sx ≤ 0) :
    ∃ e, downscale_by_mode arr sy sx = Except.error e := by
  rw [downscale_by_mode]
  by_cases h0 : sy = 0 ∨ sx = 0
  · rw [if_pos h0]
    exact ⟨_, rfl⟩
  · rw [if_neg h0, if_pos (by omega)]
    exact ⟨_, rfl⟩

theorem c7_witness : ∃ e, downscale_by_mode [[0]] 0 1 = Except.error e :=
  c7_nonpositive_blocksize_fails [[0]] 0 1 (Or.inl (by norm_num))

/-- C10: with pairwise-distinct candidate Lab colors and
`2 ≤ K ≤ #candidates`, the K indices chosen by farthest-point selection
are pairwise distinct: every chosen index has nearest-chosen distance 0,
an unchosen one has positive distance, so the argmax never re-selects. -/
theorem c10_chosen_indices_distinct (cand : List Lab) (K : ℕ)
    (hpw : List.Pairwise (fun p q => p ≠ q) cand)
    (hK : 2 ≤ K) (hKN : K ≤ cand.length) :
    (_farthest_point_palette _deltaE76_sq cand K).Nodup := by
  have hpw2 : ∀ i j, i < cand.length → j < cand.length → i ≠ j →
      cand.getD i default ≠ cand.getD j default := by
    intro i j hi hj hij
    rw [List.getD_eq_getElem _ _ hi, List.getD_eq_getElem _ _ hj]
    rcases Nat.lt_or_ge i j with h | h
    · exact (List.pairwise_iff_getElem.mp hpw) i j hi hj h
    · have hji : j < i := by omega
      exact ((List.pairwise_iff_getElem.mp hpw) j i hj hi hji).symm
  have hne : cand ≠ [] := by
    intro h0
    rw [h0] at hKN
    simp at hKN
    omega
  have hmapne : cand.map chroma_sq ≠ [] := by simpa using hne
  rw [_farthest_point_palette]
  refine fpGo_nodup cand hpw2 (K - 1) _ _ (by simp) (by simp) ?_
    (dminSpec_init _ _ _) ?_
  · intro c hc
    have hc0 : c = listArgmax (cand.map chroma_sq) := by simpa using hc
    rw [hc0]
    have := listArgmax_lt _ hmapne
    simpa using this
  · simp only [List.length_cons, List.length_nil]
    omega

theorem c10_witness :
    (2 ≤ ([⟨0, 0, 0⟩, ⟨1, 0, 0⟩] : List Lab).length) ∧
    (_farthest_point_palette _deltaE76_sq [⟨0, 0, 0⟩, ⟨1, 0, 0⟩] 2).Nodup :=
  ⟨by norm_num,
   c10_chosen_indices_distinct [⟨0, 0, 0⟩, ⟨1, 0, 0⟩] 2
     (by simp [List.pairwise_cons, Lab.mk.injEq]) (le_refl 2) (by norm_num)⟩

/-- C2: farthest-point selection seeds with the candidate of maximum
chroma (first occurrence on ties), then each of the `K − 1` subsequent
picks maximizes the distance to the nearest already-chosen color
(`nearestChosen`, maintained incrementally by the `min` update in the
source), ties again to the first occurrence; the result has exactly `K`
entries, all indices into the candidate list.  Chroma and ΔE76
comparisons are realized on squares (strictly monotone transform). -/
theorem c2_farthest_point_selection (cand : List Lab) (K : ℕ)
    (hne : cand ≠ []) (hK : 2 ≤ K) :
    (_farthest_point_palette _deltaE76_sq cand K).length = K ∧
    (∀ i ∈ _farthest_point_palette _deltaE76_sq cand K, i < cand.length) ∧
    (∀ j, j < cand.length →
      chroma_sq (cand.getD j default)
          ≤ chroma_sq (cand.getD
              ((_farthest_point_palette _deltaE76_sq cand K).getD 0 0)
              default) ∧
      (j < (_farthest_point_palette _deltaE76_sq cand K).getD 0 0 →
        chroma_sq (cand.getD j default)
          < chroma_sq (cand.getD
              ((_farthest_point_palette _deltaE76_sq cand K).getD 0 0)
              default))) ∧
    (∀ t, 1 ≤ t → t < K →
      (∀ j, j < cand.length →
        nearestChosen _deltaE76_sq cand
            ((_farthest_point_palette _deltaE76_sq cand K).take t) j
          ≤ nearestChosen _deltaE76_sq cand
              ((_farthest_point_palette _deltaE76_sq cand K).take t)
              ((_farthest_point_palette _deltaE76_sq cand K).getD t 0)) ∧
      (∀ j, j < (_farthest_point_palette _deltaE76_sq cand K).getD t 0 →
        nearestChosen _deltaE76_sq cand
            ((_farthest_point_palette _deltaE76_sq cand K).take t) j
          < nearestChosen _deltaE76_sq cand
              ((_farthest_point_palette _deltaE76_sq cand K).take t)
              ((_farthest_point_palette _deltaE76_sq cand K).getD t 0))) := by
  have hN : 0 < cand.length := List.length_pos.mpr hne
  have hmapne : cand.map chroma_sq ≠ [] := by simpa using hne
  have hseed_lt : listArgmax (cand.map chroma_sq) < cand.length := by
    have := listArgmax_lt _ hmapne
    simpa using this
  have hF : _farthest_point_palette _deltaE76_sq cand K
      = fpGo _deltaE76_sq cand (K - 1) [listArgmax (cand.map chroma_sq)]
        (cand.map (fun c => _deltaE76_sq c
          (cand.getD (listArgmax (cand.map chroma_sq)) default))) := rfl
  obtain ⟨hlen, htake, hpick⟩ := fpGo_spec _deltaE76_sq cand (K - 1)
    [listArgmax (cand.map chroma_sq)]
    (cand.map (fun c => _deltaE76_sq c
      (cand.getD (listArgmax (cand.map chroma_sq)) default)))
    (by simp) (dminSpec_init _ _ _)
  rw [hF]
  set F := fpGo _deltaE76_sq cand (K - 1) [listArgmax (cand.map chroma_sq)]
    (cand.map (fun c => _deltaE76_sq c
      (cand.getD (listArgmax (cand.map chroma_sq)) default))) with hFdef
  have hlenK : F.length = K := by
    rw [hlen]
    simp only [List.length_cons, List.length_nil]
    omega
  have hmem : ∀ i ∈ F, i < cand.length := by
    refine fpGo_mem _deltaE76_sq cand (K - 1) _ _ (by simp) hne ?_
    intro c hc
    have hc0 : c = listArgmax (cand.map chroma_sq) := by simpa using hc
    rw [hc0]
    exact hseed_lt
  have htake1 : F.take 1 = [listArgmax (cand.map chroma_sq)] := by
    simpa using htake
  have hget0 : F.getD 0 0 = listArgmax (cand.map chroma_sq) := by
    have h0F : 0 < F.length := by omega
    have h0tk : 0 < (F.take 1).length := by
      rw [List.length_take]
      exact lt_min_iff.mpr ⟨by omega, h0F⟩
    have h3 : (F.take 1).getD 0 0 = listArgmax (cand.map chroma_sq) := by
      rw [htake1]
      rfl
    rw [← h3, List.getD_eq_getElem _ _ h0tk, List.getD_eq_getElem _ _ h0F]
    exact (List.getElem_take F).symm
  refine ⟨hlenK, hmem, ?_, ?_⟩
  · intro j hj
    rw [hget0]
    constructor
    · have h := listArgmax_le (0 : ℚ) (cand.map chroma_sq) j (by simpa using hj)
      rwa [getD_map _ _ _ default hj, getD_map _ _ _ default hseed_lt] at h
    · intro hjlt
      have h := listArgmax_first (0 : ℚ) (cand.map chroma_sq) j hjlt
      rwa [getD_map _ _ _ default hj, getD_map _ _ _ default hseed_lt] at h
  · intro t ht1 htK
    have hp := hpick t (by simpa using ht1)
      (by simp only [List.length_cons, List.length_nil]; omega)
    have hdne : dminSpec _deltaE76_sq cand (F.take t) ≠ [] := by
      intro h0
      have := dminSpec_length _deltaE76_sq cand (F.take t)
      rw [h0] at this
      simp at this
      omega
    have hpick_lt : F.getD t 0 < cand.length := by
      rw [hp]
      have := listArgmax_lt _ hdne
      rw [dminSpec_length] at this
      exact this
    constructor
    · intro j hj
      have h := listArgmax_le (0 : ℚ) (dminSpec _deltaE76_sq cand (F.take t)) j
        (by rw [dminSpec_length]; exact hj)
      rw [← hp] at h
      rwa [dminSpec_getD _ _ _ hj, dminSpec_getD _ _ _ hpick_lt] at h
    · intro j hjlt
      have hj : j < cand.length := by omega
      have hjlt2 : j < listArgmax (dminSpec _deltaE76_sq cand (F.take t)) := by
        rw [← hp]
        exact hjlt
      have h := listArgmax_first (0 : ℚ)
        (dminSpec _deltaE76_sq cand (F.take t)) j hjlt2
      rw [← hp] at h
      rwa [dminSpec_getD _ _ _ hj, dminSpec_getD _ _ _ hpick_lt] at h

theorem c2_witness :
    (([⟨0, 0, 0⟩, ⟨1, 0, 0⟩] : List Lab) ≠ [] ∧ 2 ≤ 2) ∧
    (_farthest_point_palette _deltaE76_sq [⟨0, 0, 0⟩, ⟨1, 0, 0⟩] 2).length
      = 2 :=
  ⟨⟨by simp, le_refl 2⟩,
   (c2_farthest_point_selection [⟨0, 0, 0⟩, ⟨1, 0, 0⟩] 2 (by simp)
     (le_refl 2)).1⟩

/-- C1: for positive block sizes, `downscale_by_mode` succeeds, the
output grid has exactly `(H // sy) × (W // sx)` entries (trailing
rows/cols cropped, no padding), and entry `(i, j)` is the palette index
with the highest occurrence count in the `sy×sx` block at `(i, j)`
(`blockAt`, the row of the source's reshape/swapaxes partition), ties
broken by the lowest index value; a monochrome block reproduces its
color exactly. -/
theorem c1_downscale_by_mode_spec (img : List (List ℕ)) (sy sx : ℤ)
    (W : ℕ) (hsy : 0 < sy) (hsx : 0 < sx)
    (hrect : ∀ row ∈ img, row.length = W)
    (hpix : ∀ row ∈ img, ∀ p ∈ row, p < 256) :
    ∃ out, downscale_by_mode img sy sx = Except.ok out ∧
      out.length = img.length / sy.toNat ∧
      (∀ row ∈ out, row.length = W / sx.toNat) ∧
      (∀ i j, i < img.length / sy.toNat → j < W / sx.toNat →
        (∀ v, (blockAt img sy.toNat sx.toNat i j).count v
            ≤ (blockAt img sy.toNat sx.toNat i j).count
                ((out.getD i []).getD j 0)) ∧
        (∀ v, (blockAt img sy.toNat sx.toNat i j).count v
            = (blockAt img sy.toNat sx.toNat i j).count
                ((out.getD i []).getD j 0) →
          (out.getD i []).getD j 0 ≤ v) ∧
        (∀ c, (∀ p ∈ blockAt img sy.toNat sx.toNat i j, p = c) →
          (out.getD i []).getD j 0 = c)) := by
  have h1 : ¬(sy = 0 ∨ sx = 0) := by omega
  have h2 : ¬(sy < 0 ∨ sx < 0) := by omega
  refine ⟨downscaleCore img sy.toNat sx.toNat, ?_, downscaleCore_length img _ _,
    ?_, ?_⟩
  · rw [downscale_by_mode, if_neg h1, if_neg h2]
  · intro row hrow
    match img, hrect with
    | [], _ => simp [downscaleCore] at hrow
    | r0 :: rest, hrect =>
        have hW : ((r0 :: rest).headD []).length = W := by
          simpa using hrect r0 (List.mem_cons_self _ _)
        rw [downscaleCore_row_length _ _ _ row hrow, hW]
  · intro i j hi hj
    match img, hrect, hpix, hi with
    | [], _, _, hi =>
        simp at hi
    | r0 :: rest, hrect, hpix, hi =>
        have hW : ((r0 :: rest).headD []).length = W := by
          simpa using hrect r0 (List.mem_cons_self _ _)
        have hj2 : j < ((r0 :: rest).headD []).length / sx.toNat := by
          rw [hW]
          exact hj
        have hval := downscaleCore_getD (r0 :: rest) sy.toNat sx.toNat hi hj2
        rw [hval]
        have hblt := blockAt_pix_lt_256 (r0 :: rest) hpix sy.toNat sx.toNat i j
        have hbne := @blockAt_ne_nil (r0 :: rest) sy.toNat sx.toNat i j
          (by omega) (by omega)
        exact ⟨blockMode_count_le _ hblt,
          fun v heq => blockMode_tiebreak _ hblt v heq,
          fun c hall => blockMode_const _ hbne hblt c hall⟩

theorem c1_witness :
    ∃ out, downscale_by_mode [[1, 2], [2, 2]] 2 2 = Except.ok out ∧
      out.length = 1 := by
  obtain ⟨out, hok, hlen, -, -⟩ := c1_downscale_by_mode_spec
    [[1, 2], [2, 2]] 2 2 2 (by norm_num) (by norm_num) (by decide) (by decide)
  exact ⟨out, hok, by simpa using hlen⟩

/-- C4: without an override the pipeline replaces both estimated axes by
`m = max(sy, sx)`, subtracts one from each, and hands `(m−1, m−1)` to
the downscaler (and reports that block size); with an override the pair
is used verbatim — no square enforcement, no off-by-one. -/
theorem c4_override_and_adjustment (toLab : RGB → Lab)
    (img : List (List RGB)) (colors : ℤ)
    (smin smax sample_step bucket : ℕ) (refine : Bool) (o : ℤ × ℤ) :
    fix_pixel_art toLab img colors smin smax sample_step bucket refine none
      = (posterize_diverse toLab img colors sample_step bucket refine
          400000).bind (fun pal =>
          let m : ℤ :=
            (max (estimate_grid_step_from_edges pal.pixels smin smax).1
                 (estimate_grid_step_from_edges pal.pixels smin smax).2 : ℕ)
          (downscale_by_mode pal.pixels (m - 1) (m - 1)).map (fun out =>
            (pal, (m - 1, m - 1), ⟨out, pal.palette⟩))) ∧
    fix_pixel_art toLab img colors smin smax sample_step bucket refine
        (some o)
      = (posterize_diverse toLab img colors sample_step bucket refine
          400000).bind (fun pal =>
          (downscale_by_mode pal.pixels o.1 o.2).map (fun out =>
            (pal, o, ⟨out, pal.palette⟩))) := by
  constructor
  · rw [fix_pixel_art]
    cases hp : posterize_diverse toLab img colors sample_step bucket refine
      400000 with
    | error e => rfl
    | ok pal =>
        simp only [Except.bind]
        have hmax :
            (if ((estimate_grid_step_from_edges pal.pixels smin smax).2 : ℤ)
                < (estimate_grid_step_from_edges pal.pixels smin smax).1
              then ((estimate_grid_step_from_edges pal.pixels smin smax).1 : ℤ)
              else ((estimate_grid_step_from_edges pal.pixels smin smax).2 : ℤ))
            = ((max (estimate_grid_step_from_edges pal.pixels smin smax).1
                  (estimate_grid_step_from_edges pal.pixels smin smax).2 : ℕ)
                : ℤ) := by
          split_ifs with h
          · push_cast
            omega
          · push_cast
            omega
        rw [hmax]
  · rw [fix_pixel_art]

/-- C6 (amended): `posterize_diverse` never raises on `colors < 2`; it
silently clamps the palette size to `K = max(2, colors)` and proceeds,
returning a palette of exactly `K` entries (whenever `K ≤ 256`, where
the palette container holds it). -/
theorem c6_amended_silent_clamp (toLab : RGB → Lab) (img : List (List RGB))
    (colors : ℤ) (sample_step bucket : ℕ) (refine : Bool) (map_chunk : ℕ)
    (h256 : (max 2 colors).toNat ≤ 256) :
    ∃ pal, posterize_diverse toLab img colors sample_step bucket refine
        map_chunk = Except.ok pal ∧
      pal.palette.length = (max 2 colors).toNat := by
  have hK2 : (2 : ℤ) ≤ max 2 colors := le_max_left _ _
  simp only [posterize_diverse]
  rw [if_neg (by omega)]
  refine ⟨_, rfl, ?_⟩
  simp only [List.length_map]
  cases refine
  · rw [if_neg (by simp)]
    rw [_farthest_point_palette_length _ _ _ (by omega)]
  · rw [if_pos rfl]
    rw [_kmedoids_one_iter_length,
      _farthest_point_palette_length _ _ _ (by omega)]

theorem c6_amended_witness :
    ((max 2 (0 : ℤ)).toNat ≤ 256) ∧
    ∃ pal, posterize_diverse (fun _ => ⟨0, 0, 0⟩) [[(0, 0, 0)]] 0 4 16 false
        400000 = Except.ok pal ∧
      pal.palette.length = (max 2 (0 : ℤ)).toNat :=
  ⟨by decide,
   c6_amended_silent_clamp (fun _ => ⟨0, 0, 0⟩) [[(0, 0, 0)]] 0 4 16 false
     400000 (by decide)⟩

/-- C6 (counterexample): calling the palette builder with `colors = 0`
(so `K < 2`) does NOT surface an error — it returns a normal result
whose palette has 2 entries, the silently clamped `K = max(2, 0)`. -/
theorem c6_counterexample_no_error :
    ∃ pal, posterize_diverse (fun _ => ⟨0, 0, 0⟩) [[(0, 0, 0)]] 0 4 16 false
        400000 = Except.ok pal ∧ pal.palette.length = 2 := by
  simp only [posterize_diverse]
  rw [if_neg (by decide)]
  refine ⟨_, rfl, ?_⟩
  simp only [List.length_map]
  rw [if_neg (by simp)]
  rw [_farthest_point_palette_length _ _ _ (by decide)]
  decide

/-! ### Degenerate single-candidate runs and the C8 division failure -/

theorem fpGo_singleton (dist : Lab → Lab → ℚ) (c : Lab) :
    ∀ (t : ℕ) (chosen : List ℕ) (dmin : List ℚ), dmin.length = 1 →
      fpGo dist [c] t chosen dmin = chosen ++ List.replicate t 0
  | 0, chosen, dmin, _ => by simp [fpGo]
  | t + 1, chosen, dmin, h => by
      match dmin, h with
      | [q], _ =>
          rw [fpGo]
          have h1 : listArgmax [q] = 0 := by simp [listArgmax]
          rw [h1]
          have h2 : (List.zipWith min [q] (([c] : List Lab).map
              (fun x => dist x (([c] : List Lab).getD 0 default)))).length
              = 1 := by simp
          rw [fpGo_singleton dist c t _ _ h2, List.append_assoc]
          simp [List.replicate_succ]

theorem _farthest_point_palette_singleton (dist : Lab → Lab → ℚ) (c : Lab)
    (K : ℕ) (hK : 1 ≤ K) :
    _farthest_point_palette dist [c] K = List.replicate K 0 := by
  rw [_farthest_point_palette]
  have hs : listArgmax (([c] : List Lab).map chroma_sq) = 0 := by
    simp [listArgmax]
  rw [hs, fpGo_singleton dist c (K - 1) _ _ (by simp)]
  have hKr : K = (K - 1) + 1 := by omega
  conv_rhs => rw [hKr]
  simp [List.replicate_succ]

theorem getD_replicate_zero (n : ℕ) : ∀ m, (List.replicate n (0 : ℕ)).getD m 0 = 0 := by
  intro m
  rcases Nat.lt_or_ge m n with h | h
  · rw [List.getD_eq_getElem _ _ (by simpa using h)]
    simp
  · rw [List.getD_eq_default _ _ (by simpa using h)]

theorem _kmedoids_one_iter_singleton (dist : Lab → Lab → ℚ) (c : Lab)
    (n : ℕ) :
    _kmedoids_one_iter dist [c] (List.replicate n 0) = List.replicate n 0 := by
  have hassign : ([c] : List Lab).map (fun x => listArgmin
      (((List.replicate n 0).map
        (fun i => ([c] : List Lab).getD i default)).map
          (fun p => dist x p))) = [0] := by
    rw [List.map_replicate, List.map_cons, List.map_nil, List.map_replicate,
      listArgmin_replicate]
  apply List.eq_replicate_iff.mpr
  refine ⟨by simp [_kmedoids_one_iter], ?_⟩
  intro b hb
  simp only [_kmedoids_one_iter, hassign] at hb
  rcases List.mem_map.mp hb with ⟨k, hk, rfl⟩
  simp only [List.length_cons, List.length_nil, Nat.zero_add]
  by_cases hk0 : k = 0
  · subst hk0
    have hm : List.filter (fun i => decide (([0] : List ℕ).getD i 0 = 0))
        (List.range 1) = [0] := by
      rw [List.range_succ, List.range_zero, List.nil_append,
        List.filter_cons, List.filter_nil]
      simp
    rw [hm, if_neg (by simp)]
    simp [listArgmin]
  · have hm : List.filter (fun i => decide (([0] : List ℕ).getD i 0 = k))
        (List.range 1) = [] := by
      rw [List.range_succ, List.range_zero, List.nil_append,
        List.filter_cons, List.filter_nil]
      simp [Ne.symm hk0]
    rw [hm, if_pos rfl]
    exact getD_replicate_zero n k

theorem quantizeChunked_replicate (L p : Lab) (n chunk : ℕ)
    (hc : 1 ≤ chunk) :
    quantizeChunked (List.replicate n L) [p] chunk = [0] := by
  have hq : quantizeOne (List.replicate n L) p = 0 := by
    unfold quantizeOne
    rw [List.map_replicate, listArgmin_replicate]
  rw [quantizeChunked_eq_map _ _ _ hc, List.map_cons, List.map_nil, hq]

theorem posterize_uniform_1x1 (toLab : RGB → Lab) :
    posterize_diverse toLab [[(0, 0, 0)]] 10 4 16 true 400000
      = Except.ok ⟨[[0]], List.replicate 10 (8, 8, 8)⟩ := by
  have hc : _dedup_colors 16
      (_sample_uniform_grid [[((0 : ℕ), (0 : ℕ), (0 : ℕ))]] 4)
      = [(8, 8, 8)] := by decide
  have hK : (max 2 (10 : ℤ)).toNat = 10 := by decide
  have hsplit : splitRows 1 1 [0] = [[0]] := by decide
  simp only [posterize_diverse, hc, hK, List.map_cons, List.map_nil,
    _farthest_point_palette_singleton _deltaE76_sq (toLab (8, 8, 8)) 10
      (by norm_num),
    _kmedoids_one_iter_singleton, List.map_replicate, List.getD_cons_zero,
    List.flatten_cons, List.flatten_nil, List.append_nil,
    quantizeChunked_replicate (toLab (8, 8, 8)) (toLab (0, 0, 0)) 10 400000
      (by norm_num),
    if_neg (by norm_num : ¬(256 : ℕ) < 10), List.headD_cons,
    List.length_cons, List.length_nil, Nat.zero_add, if_true, hsplit]

theorem estimate_1x1_fallback :
    estimate_grid_step_from_edges [[0]] 2 64 = (1, 1) := by
  decide

/-- C8: on a 1×1 input the edge-strength profiles have length 0 < smin,
the period search range is empty on both axes, `_best_period` falls back
to 1, the square/off-by-one adjustment turns (1, 1) into (0, 0), and the
downscaler divides by zero — the pipeline run fails with a division
error. -/
theorem c8_fallback_reaches_zero_blocksize (toLab : RGB → Lab) :
    estimate_grid_step_from_edges [[0]] 2 64 = (1, 1) ∧
    fix_pixel_art toLab [[(0, 0, 0)]] 10 2 64 4 16 true none
      = Except.error PipeError.divisionByZero := by
  refine ⟨estimate_1x1_fallback, ?_⟩
  rw [fix_pixel_art, posterize_uniform_1x1]
  simp only [Except.bind, estimate_1x1_fallback]
  rw [downscale_by_mode]
  norm_num [Except.map]
